import Mathlib

/-!
Verification of the job-recommendation engine in
`notebook/generate_data.py` (and its near-duplicate
`notebook/generate_sample_data.py`): the stratified sampler, the
location/weighted similarity construction and the top-N extractor.

The Python code is embedded shallowly:

* records are a Lean structure holding the string fields the engine reads;
* pandas/numpy float arithmetic is modelled exactly over `ℚ` (the claims
  under check concern selection, ordering, quotas and control flow, none
  of which depend on float rounding of the similarity values themselves);
* operations that can raise (`Series.idxmax` on an empty series,
  `pd.concat([])`, `DataFrame.sample` with a bad size, numpy indexing
  out of bounds) return `Except`/`Option`, with `error`/`none` standing
  for the raised exception;
* the two mutable `while` loops of `stratified_sample` are written with
  an explicit step budget that provably suffices (each iteration moves
  the quota sum by exactly 1 toward the target), so every definition
  stays executable; running out of budget is an error, so `Except.ok`
  means the Python loop really finished;
* `np.argsort` is modelled as a stable ascending sort of indices
  (ties keep ascending index order), which is numpy's behaviour on the
  small arrays the tie-order facts below are stated about;
* `DataFrame.sample(n=k, random_state=42)` draws `k` rows of the group
  pseudorandomly; it is modelled as taking the first `k` rows of the
  group, which preserves everything the claims depend on (the drawn rows
  number exactly `k` and belong to the group).
-/

namespace JobRec

/- Batteries marks the arithmetic on `Rat` as irreducible; re-enable
unfolding inside this development so that concrete runs of the embedded
pipeline evaluate by `decide`. -/
attribute [local semireducible] Rat.add Rat.mul Rat.inv Rat.sub Rat.ofScientific

/-- A job record, restricted to the fields the engine reads.  The source
fields `remote`, `description`, `url` and `date` are carried by the
DataFrame but are not read by the sampler, the location similarity or
the extractor, so they are omitted here. -/
structure Job where
  id : String
  title : String
  company : String
  city : String
  state : String
  country : String
  category : String
  job_type : String
  experience : String
  education : String
  deriving DecidableEq

/-- Deduplication key of `df.drop_duplicates(subset=['title', 'company', 'city'])`. -/
def dedupKey (j : Job) : String × String × String :=
  (j.title, j.company, j.city)

/-- Helper for `dropDuplicates`: keep a record iff its key was not seen yet. -/
def dropDupAux (seen : List (String × String × String)) : List Job → List Job
  | [] => []
  | j :: rest =>
    if dedupKey j ∈ seen then dropDupAux seen rest
    else j :: dropDupAux (dedupKey j :: seen) rest

/-- Embedding of `df.drop_duplicates(subset=['title', 'company', 'city'])`:
first occurrence of each key wins, later duplicates are dropped. -/
def dropDuplicates (l : List Job) : List Job :=
  dropDupAux [] l

/-- Embedding of `df_dedup['category'].replace('', 'Other')` applied to one record. -/
def replaceEmptyCat (j : Job) : Job :=
  if j.category = "" then { j with category := "Other" } else j

/-- Distinct category values in first-appearance order (the key order a
pandas hash-based grouping produces before sorting by count). -/
def catsInOrderAux (seen : List String) : List Job → List String
  | [] => []
  | j :: rest =>
    if j.category ∈ seen then catsInOrderAux seen rest
    else j.category :: catsInOrderAux (j.category :: seen) rest

def catsInOrder (jobs : List Job) : List String :=
  catsInOrderAux [] jobs

/-- Number of records of category `c`. -/
def countCat (jobs : List Job) (c : String) : ℕ :=
  (jobs.filter (fun j => j.category = c)).length

/-- Stable descending insertion by count: the new entry goes before the
first entry with a strictly smaller count, so entries with equal counts
keep their relative order. -/
def insertByCount (x : String × ℕ) : List (String × ℕ) → List (String × ℕ)
  | [] => [x]
  | y :: rest => if y.2 < x.2 then x :: y :: rest else y :: insertByCount x rest

/-- Embedding of `df_dedup['category'].value_counts()`: pairs
(category, count), sorted by count descending; ties keep
first-appearance order (stable sort). -/
def value_counts (jobs : List Job) : List (String × ℕ) :=
  ((catsInOrder jobs).map (fun c => (c, countCat jobs c))).foldl
    (fun acc x => insertByCount x acc) []

/-- Python `int(...)` on a rational: truncation toward zero.
Written with `Rat.floor` so that it evaluates by kernel reduction. -/
def pyInt (q : ℚ) : ℤ :=
  if 0 ≤ q then q.floor else -(-q).floor

/-- Embedding of
`cat_samples = (cat_counts / cat_counts.sum() * n).apply(lambda x: max(int(x), min_per_group))`. -/
def initialQuotas (counts : List (String × ℕ)) (n m : ℤ) : List (String × ℤ) :=
  counts.map (fun p =>
    (p.1, max (pyInt ((p.2 : ℚ) / ((counts.map Prod.snd).sum : ℚ) * (n : ℚ))) m))

/-- Sum of the quota series (`cat_samples.sum()`). -/
def qsum (qs : List (String × ℤ)) : ℤ :=
  (qs.map Prod.snd).sum

/-- Add `d` to the quota at position `i` (`cat_samples[largest] += d`). -/
def updateQuota : List (String × ℤ) → ℕ → ℤ → List (String × ℤ)
  | [], _, _ => []
  | p :: rest, 0, d => (p.1, p.2 + d) :: rest
  | p :: rest, i + 1, d => p :: updateQuota rest i d

/-- Embedding of `Series.idxmax` as a position: first index holding the
maximum value (pandas returns the label of that position). -/
def argmaxIdx : List ℤ → ℕ
  | [] => 0
  | [_] => 0
  | x :: y :: rest =>
    if x < (y :: rest).getD (argmaxIdx (y :: rest)) 0 then argmaxIdx (y :: rest) + 1
    else 0

/-- One budgeted run of `while cat_samples.sum() > n: cat_samples[cat_samples.idxmax()] -= 1`.
Exhausting the budget is an error, so `ok` means the loop finished. -/
def decSteps (n : ℤ) : ℕ → List (String × ℤ) → Except String (List (String × ℤ))
  | 0, _ => Except.error "loop budget exhausted"
  | fuel + 1, qs =>
    if n < qsum qs then
      if qs = [] then Except.error "attempt to get argmax of an empty sequence"
      else decSteps n fuel (updateQuota qs (argmaxIdx (qs.map Prod.snd)) (-1))
    else Except.ok qs

/-- One budgeted run of `while cat_samples.sum() < n: cat_samples[cat_samples.idxmax()] += 1`. -/
def incSteps (n : ℤ) : ℕ → List (String × ℤ) → Except String (List (String × ℤ))
  | 0, _ => Except.error "loop budget exhausted"
  | fuel + 1, qs =>
    if qsum qs < n then
      if qs = [] then Except.error "attempt to get argmax of an empty sequence"
      else incSteps n fuel (updateQuota qs (argmaxIdx (qs.map Prod.snd)) 1)
    else Except.ok qs

/-- The decrementing quota loop, with a budget that provably suffices
(each iteration lowers the quota sum by exactly 1). -/
def decLoop (n : ℤ) (qs : List (String × ℤ)) : Except String (List (String × ℤ)) :=
  decSteps n ((qsum qs - n).toNat + 1) qs

/-- The incrementing quota loop, with a budget that provably suffices. -/
def incLoop (n : ℤ) (qs : List (String × ℤ)) : Except String (List (String × ℤ)) :=
  incSteps n ((n - qsum qs).toNat + 1) qs

/-- The deduplicated, category-filled corpus the sampler works on
(lines 120-124 of `generate_data.py`). -/
def dedupCorpus (df : List Job) : List Job :=
  (dropDuplicates df).map replaceEmptyCat

/-- Initial quotas computed from a raw corpus: deduplicate, default-fill
the category, count categories, apply the quota formula.  Lines 120-128
of `generate_data.py`. -/
def initialQuotasOf (df : List Job) (n m : ℤ) : List (String × ℤ) :=
  initialQuotas (value_counts (dedupCorpus df)) n m

/-- The quota pipeline of `stratified_sample` up to and including both
adjustment loops (lines 120-135). -/
def adjustedQuotas (df : List Job) (n m : ℤ) : Except String (List (String × ℤ)) := do
  let q1 ← decLoop n (initialQuotasOf df n m)
  incLoop n q1

/-- Embedding of `cat_df.sample(n=k, random_state=42)`: `k` must be a
valid size; the pseudorandom draw is modelled as the first `k` rows. -/
def pySample (l : List Job) (k : ℤ) : Except String (List Job) :=
  if k < 0 then Except.error "sample size negative"
  else if l.length < k.toNat then Except.error "sample size larger than population"
  else Except.ok (l.take k.toNat)

/-- Embedding of the per-category draw loop (lines 137-141):
`sampled.append(cat_df.sample(n=min(count, len(cat_df)), random_state=42))`
followed by concatenation. -/
def drawAll (jobs : List Job) : List (String × ℤ) → Except String (List Job)
  | [] => Except.ok []
  | (c, q) :: rest => do
    let catList := jobs.filter (fun j => j.category = c)
    let drawn ← pySample catList (min q (catList.length : ℤ))
    let others ← drawAll jobs rest
    Except.ok (drawn ++ others)

/-- Embedding of `stratified_sample(df, n, min_per_group)` (lines 119-145).
`pd.concat(sampled)` raises when `sampled` is empty, hence the emptiness
check before drawing. -/
def stratified_sample (df : List Job) (n m : ℤ) : Except String (List Job) := do
  let qs ← adjustedQuotas df n m
  if qs = [] then Except.error "No objects to concatenate"
  else drawAll (dedupCorpus df) qs

/-- Sequential evaluation of a list of fallible computations, as a Python
list comprehension or loop body that can raise: the first failure aborts
the whole run. -/
def mapOpt {α β : Type} : List α → (α → Option β) → Option (List β)
  | [], _ => some []
  | a :: rest, f =>
    match f a with
    | none => none
    | some b =>
      match mapOpt rest f with
      | none => none
      | some bs => some (b :: bs)

/-- Embedding of the numpy element assignment `scores[i] = -1`:
out-of-range indices raise. -/
def setNth (l : List ℚ) (i : ℕ) (v : ℚ) : Option (List ℚ) :=
  if i < l.length then some (l.set i v) else none

/-- Insert index `k` into an index list sorted ascending by score:
`k` goes before the first index with a strictly larger score, so equal
scores keep insertion order (stability). -/
def insertRank (s : List ℚ) (k : ℕ) : List ℕ → List ℕ
  | [] => [k]
  | j :: rest =>
    if s.getD k 0 < s.getD j 0 then k :: j :: rest else j :: insertRank s k rest

/-- Embedding of `np.argsort(scores)`: indices sorted by score ascending,
equal scores in ascending index order (stable). -/
def argsortAsc (s : List ℚ) : List ℕ :=
  (List.range s.length).foldl (fun acc k => insertRank s k acc) []

/-- Round half to even, the tie rule of Python's built-in `round`.
Written with `Rat.floor` and an explicit parity test so that it
evaluates by kernel reduction. -/
def roundHalfEven (q : ℚ) : ℤ :=
  if q - (q.floor : ℚ) < 1/2 then q.floor
  else if 1/2 < q - (q.floor : ℚ) then q.floor + 1
  else if q.floor % 2 = 0 then q.floor else q.floor + 1

/-- Embedding of `round(float(x), 4)`. -/
def round4 (q : ℚ) : ℚ :=
  ((roundHalfEven (q * 10000) : ℤ) : ℚ) / 10000

/-- Embedding of `get_top_n_recs(sim_matrix, df, n)` (lines 148-158 of
`generate_data.py`, identical at lines 343-353 of
`generate_sample_data.py`).  `none` models an uncaught `IndexError`:
the comprehension runs `j` over `range(n)` even when `top_n` holds fewer
than `n` indices. -/
def get_top_n_recs (sim : List (List ℚ)) (ids : List String) (n : ℕ) :
    Option (List (String × List (String × ℚ))) :=
  mapOpt (List.range ids.length) (fun i =>
    Option.bind (sim.get? i) (fun row =>
      Option.bind (setNth row i (-1)) (fun scores =>
        Option.bind (mapOpt (List.range n) (fun j =>
            Option.bind (((argsortAsc scores).reverse.take n).get? j) (fun k =>
              Option.bind (scores.get? k) (fun s =>
                Option.bind (ids.get? k) (fun nid =>
                  some (nid, round4 s))))))
          (fun pairs =>
            Option.bind (ids.get? i) (fun sid => some (sid, pairs))))))

/-- Embedding of lines 184-190: fill the empty optional fields of a
sampled record with their defaults. -/
def fillEmpty (s dflt : String) : String :=
  if s = "" then dflt else s

def fillJob (j : Job) : Job :=
  { j with
    category := fillEmpty j.category "Other"
    experience := fillEmpty j.experience "Not Specified"
    education := fillEmpty j.education "Not Specified"
    job_type := fillEmpty j.job_type "Not Specified"
    city := fillEmpty j.city "Unknown"
    state := fillEmpty j.state "Unknown"
    country := fillEmpty j.country "Unknown" }

/-- One entry of the nested `np.where` location-similarity expression
(lines 237-241). -/
def loc_sim (a b : Job) : ℚ :=
  if a.city = b.city then 1
  else if a.state = b.state then 1/2
  else if a.country = b.country then 1/5
  else 0

/-- The full location similarity matrix over a sampled set. -/
def locMatrix (jobs : List Job) : List (List ℚ) :=
  jobs.map (fun a => jobs.map (fun b => loc_sim a b))

/-- The per-feature composition weights (the `WEIGHTS` dict). -/
structure FeatWeights where
  description : ℚ
  title : ℚ
  category : ℚ
  location : ℚ
  job_type : ℚ
  experience : ℚ
  deriving DecidableEq

/-- Lines 256-259 of `generate_data.py`. -/
def WEIGHTS : FeatWeights :=
  { description := 35/100, title := 25/100, category := 15/100
    location := 10/100, job_type := 8/100, experience := 7/100 }

def weightsSum (w : FeatWeights) : ℚ :=
  w.description + w.title + w.category + w.location + w.job_type + w.experience

/-- Elementwise scalar multiple of a matrix. -/
def matScale (c : ℚ) (a : List (List ℚ)) : List (List ℚ) :=
  a.map (fun row => row.map (fun x => c * x))

/-- Elementwise sum of two same-shape matrices. -/
def matAdd (a b : List (List ℚ)) : List (List ℚ) :=
  a.zipWith (fun ra rb => ra.zipWith (fun x y => x + y) rb) b

/-- Embedding of the `weighted_sim` expression (lines 261-268): a plain
linear blend, computed for whatever weights are supplied; the source
performs no validation of the weights anywhere. -/
def weighted_sim (w : FeatWeights)
    (desc title cat loc jt exp : List (List ℚ)) : List (List ℚ) :=
  matAdd (matAdd (matAdd (matAdd (matAdd
    (matScale w.description desc)
    (matScale w.title title))
    (matScale w.category cat))
    (matScale w.location loc))
    (matScale w.job_type jt))
    (matScale w.experience exp)

/-- Strict ranking order underlying the stable ascending argsort:
smaller score first, equal scores in ascending index order. -/
def rankLt (s : List ℚ) (a b : ℕ) : Prop :=
  s.getD a 0 < s.getD b 0 ∨ (s.getD a 0 = s.getD b 0 ∧ a < b)

/-- A small record builder for concrete test corpora: distinct `t` gives
distinct dedup keys. -/
def demoJob (t cat : String) : Job :=
  { id := t, title := t, company := "Co", city := "City", state := "St"
    country := "Cy", category := cat, job_type := "Full-time"
    experience := "Associate", education := "BS" }

/-- Three distinct records of a single category: a corpus far smaller
than the target size. -/
def exSmall : List Job :=
  [demoJob "a" "X", demoJob "b" "X", demoJob "c" "X"]

/-- Five distinct records, three of category A and two of category B:
category A's share of a target of 3 is 1.8, which `int` truncates. -/
def exShare : List Job :=
  [demoJob "a" "A", demoJob "b" "A", demoJob "c" "A",
   demoJob "d" "B", demoJob "e" "B"]

/-- Seven distinct records, six of category A and one of category B:
with target 4 and floor 2, B's quota exceeds its availability. -/
def exStarve : List Job :=
  [demoJob "a" "A", demoJob "b" "A", demoJob "c" "A", demoJob "d" "A",
   demoJob "e" "A", demoJob "f" "A", demoJob "g" "B"]

/-- The draw `stratified_sample` produces on `exStarve` with target 4,
floor 2. -/
def exStarveRes : List Job :=
  [demoJob "a" "A", demoJob "b" "A", demoJob "g" "B"]

/-- A weight configuration whose entries sum to 2, not 1: every default
weight doubled. -/
def doubledWeights : FeatWeights :=
  { description := 70/100, title := 50/100, category := 30/100
    location := 20/100, job_type := 16/100, experience := 14/100 }

/-- A record with no city, used to probe the default-fill interaction. -/
def noCityJobA : Job :=
  { id := "1", title := "T1", company := "C1", city := "", state := "CA"
    country := "US", category := "Eng", job_type := "Full-time"
    experience := "Associate", education := "" }

/-- Another record with no city, in a different state and country. -/
def noCityJobB : Job :=
  { id := "2", title := "T2", company := "C2", city := "", state := "NSW"
    country := "AU", category := "Sales", job_type := "Contract"
    experience := "Director", education := "" }

/-!  Theorems.  -/

/-- C9: for every pair of items, the location similarity entry is exactly
one of 0, 0.2, 0.5, 1, chosen by priority order with first match winning:
1 on equal cities, else 0.5 on equal states, else 0.2 on equal countries,
else 0. -/
theorem c9_location_similarity_priority (a b : Job) :
    loc_sim a b ∈ ({0, 1/5, 1/2, 1} : Set ℚ) ∧
    (loc_sim a b = 1 ↔ a.city = b.city) ∧
    (loc_sim a b = 1/2 ↔ (a.city ≠ b.city ∧ a.state = b.state)) ∧
    (loc_sim a b = 1/5 ↔
      (a.city ≠ b.city ∧ a.state ≠ b.state ∧ a.country = b.country)) ∧
    (loc_sim a b = 0 ↔
      (a.city ≠ b.city ∧ a.state ≠ b.state ∧ a.country ≠ b.country)) := by
  unfold loc_sim
  by_cases h1 : a.city = b.city <;> by_cases h2 : a.state = b.state <;>
    by_cases h3 : a.country = b.country <;>
      simp [h1, h2, h3]

/-- C10: when both records lack a city, the default fill sets both cities
to "Unknown", and the location similarity is 1 — a perfect location
match — regardless of the records' states and countries. -/
theorem c10_missing_city_full_match (a b : Job)
    (ha : a.city = "") (hb : b.city = "") :
    loc_sim (fillJob a) (fillJob b) = 1 := by
  simp [loc_sim, fillJob, fillEmpty, ha, hb]

/-- Witness for C10 at two concrete records whose states and countries
differ. -/
theorem c10_missing_city_full_match_witness :
    loc_sim (fillJob noCityJobA) (fillJob noCityJobB) = 1 ∧
    noCityJobA.state ≠ noCityJobB.state ∧
    noCityJobA.country ≠ noCityJobB.country :=
  ⟨c10_missing_city_full_match noCityJobA noCityJobB rfl rfl,
   by decide, by decide⟩

/-- C3 (amended): the hard-coded weight configuration sums to exactly 1
(hence within any tolerance).  No startup check exists in the source;
see the counterexample. -/
theorem c3_weights_sum_to_one : weightsSum WEIGHTS = 1 := by
  norm_num [weightsSum, WEIGHTS]

/-- C3 counterexample: nothing rejects a configuration whose weights do
not sum to 1.  The source's composition (lines 261-268) performs no
validation anywhere, so a configuration summing to 2 flows straight into
the similarity computation and yields a composite matrix instead of a
fatal configuration error. -/
theorem c3_no_weight_check_counterexample :
    weightsSum doubledWeights = 2 ∧
    weighted_sim doubledWeights [[1]] [[1]] [[1]] [[1]] [[1]] [[1]] = [[2]] := by
  constructor
  · norm_num [weightsSum, doubledWeights]
  · norm_num [weighted_sim, matAdd, matScale, doubledWeights]

/-- C5 (amended): when the deduplicated corpus is empty the sampler does
not return an empty SampledSet: it raises.  With a positive target the
incrementing loop calls `idxmax` on an empty series; with a negative
target the decrementing loop does; with target 0 the final
`pd.concat([])` raises. -/
theorem c5_empty_corpus_errors (df : List Job) (n m : ℤ)
    (h : dropDuplicates df = []) :
    ∃ e, stratified_sample df n m = Except.error e := by
  have hd : dedupCorpus df = [] := by simp [dedupCorpus, h]
  have hq : initialQuotasOf df n m = [] := by
    rw [initialQuotasOf, hd]; rfl
  rcases lt_trichotomy n 0 with hn | hn | hn
  · have hdec : decLoop n (initialQuotasOf df n m) =
        Except.error "attempt to get argmax of an empty sequence" := by
      rw [hq]; simp [decLoop, decSteps, qsum, hn]
    refine ⟨"attempt to get argmax of an empty sequence", ?_⟩
    unfold stratified_sample adjustedQuotas
    rw [hdec]; rfl
  · subst hn
    have hdec : decLoop 0 (initialQuotasOf df 0 m) = Except.ok [] := by
      rw [hq]; simp [decLoop, decSteps, qsum]
    have hinc : incLoop 0 ([] : List (String × ℤ)) = Except.ok [] := by
      simp [incLoop, incSteps, qsum]
    have hadj : adjustedQuotas df 0 m = Except.ok [] := by
      unfold adjustedQuotas
      rw [hdec]
      show incLoop 0 ([] : List (String × ℤ)) = Except.ok []
      exact hinc
    refine ⟨"No objects to concatenate", ?_⟩
    unfold stratified_sample
    rw [hadj]; rfl
  · have hdec : decLoop n (initialQuotasOf df n m) = Except.ok [] := by
      rw [hq]; simp [decLoop, decSteps, qsum, not_lt.mpr hn.le]
    have hinc : incLoop n ([] : List (String × ℤ)) =
        Except.error "attempt to get argmax of an empty sequence" := by
      simp [incLoop, incSteps, qsum, hn]
    have hadj : adjustedQuotas df n m =
        Except.error "attempt to get argmax of an empty sequence" := by
      unfold adjustedQuotas
      rw [hdec]
      show incLoop n ([] : List (String × ℤ)) = _
      exact hinc
    refine ⟨"attempt to get argmax of an empty sequence", ?_⟩
    unfold stratified_sample
    rw [hadj]; rfl

/-- Witness for C5's amended statement at a concrete empty corpus. -/
theorem c5_empty_corpus_errors_witness :
    ∃ e, stratified_sample [] 7 5 = Except.error e :=
  c5_empty_corpus_errors [] 7 5 rfl

/-- C5 counterexample: at the exact configuration of the source
(target 1000, floor 5), the empty corpus makes `stratified_sample` raise
in `idxmax` instead of returning an empty SampledSet. -/
theorem c5_empty_corpus_counterexample :
    stratified_sample [] 1000 5 =
      Except.error "attempt to get argmax of an empty sequence" := by
  rfl

/-- C1 counterexample: on a single-item sampled set with TOP_N = 3 the
extractor does not return an empty neighbor list; the comprehension runs
`j` over `range(3)` while `top_n` holds one index, and `top_n[1]` raises
`IndexError` (modelled by `none`). -/
theorem c1_single_item_counterexample :
    get_top_n_recs [[1]] ["a"] 3 = none := by decide

/-- C2 counterexample: with exactly TOP_N = 3 items, every neighbor list
contains all three indices, so each item's own sentinel entry (score -1)
is emitted as its last recommendation. -/
theorem c2_self_emitted_counterexample :
    get_top_n_recs [[1, 4/5, 1/5], [4/5, 1, 3/10], [1/5, 3/10, 1]]
      ["a", "b", "c"] 3 =
      some [("a", [("b", 4/5), ("c", 1/5), ("a", -1)]),
            ("b", [("a", 4/5), ("c", 3/10), ("b", -1)]),
            ("c", [("b", 3/10), ("a", 1/5), ("c", -1)])] ∧
    ("a", (-1 : ℚ)) ∈ [("b", (4/5 : ℚ)), ("c", 1/5), ("a", -1)] := by
  constructor
  · decide
  · decide

/-- C4 counterexample: three records of one category with target 10 and
floor 5.  The adjustment loop finishes with quota sum 10 = N, not
min(N, deduplicated corpus size) = min(10, 3) = 3. -/
theorem c4_quota_sum_counterexample :
    adjustedQuotas exSmall 10 5 = Except.ok [("X", 10)] ∧
    (dropDuplicates exSmall).length = 3 ∧
    qsum [("X", 10)] = 10 ∧
    ¬ (10 : ℤ) = min 10 ((dropDuplicates exSmall).length : ℤ) := by
  refine ⟨by rfl, by decide, by decide, by decide⟩

/-- C6 counterexample: with three of five records in category A and a
target of 3, A's share times N is 1.8.  The code's `int(1.8)` keeps 1
(so A's initial quota is max(1, 1) = 1), while the claimed `round(1.8)`
would give max(2, 1) = 2. -/
theorem c6_floor_not_round_counterexample :
    initialQuotasOf exShare 3 1 = [("A", 1), ("B", 1)] ∧
    (max (round ((3 : ℚ)/5 * 3)) 1 : ℤ) = 2 := by
  refine ⟨by decide, by decide⟩

/-- C7 counterexample: four items, TOP_N = 3, and a tie between columns
1 ("b") and 2 ("c") in row 0.  The emitted order for "a" is d, c, b: the
tied pair appears in descending index order (c before b), because
`np.argsort` ascending puts the tied indices in ascending order and the
`[::-1]` reversal flips them; the claimed ascending tie order would emit
b before c. -/
theorem c7_tie_order_counterexample :
    get_top_n_recs
      [[1, 1/2, 1/2, 9/10], [1/2, 1, 1/4, 1/4],
       [1/2, 1/4, 1, 1/4], [9/10, 1/4, 1/4, 1]]
      ["a", "b", "c", "d"] 3 =
    some [("a", [("d", 9/10), ("c", 1/2), ("b", 1/2)]),
          ("b", [("a", 1/2), ("d", 1/4), ("c", 1/4)]),
          ("c", [("a", 1/2), ("d", 1/4), ("b", 1/4)]),
          ("d", [("a", 9/10), ("c", 1/4), ("b", 1/4)])] := by
  decide

/-- C8 counterexample: seven deduplicated records (six of category A,
one of B), target N = 4, floor 2.  The adjusted quotas are A: 2, B: 2,
but B has only one record, so the SampledSet has 3 < 4 items even though
the deduplicated corpus has 7 ≥ 4 records. -/
theorem c8_small_sample_counterexample :
    stratified_sample exStarve 4 2 = Except.ok exStarveRes ∧
    exStarveRes.length = 3 ∧
    (dropDuplicates exStarve).length = 7 ∧
    (3 : ℕ) < 4 ∧ (4 : ℕ) ≤ 7 := by
  refine ⟨by rfl, by decide, by decide, by decide, by decide⟩

/-!  Helper lemmas on the quota-adjustment loop.  -/

theorem argmaxIdx_lt_length (l : List ℤ) (h : l ≠ []) : argmaxIdx l < l.length := by
  induction l with
  | nil => exact absurd rfl h
  | cons x rest ih =>
    cases rest with
    | nil => simp [argmaxIdx]
    | cons y t =>
      have hr := ih (by simp)
      rw [argmaxIdx]
      split_ifs
      · exact Nat.succ_lt_succ hr
      · simp

theorem updateQuota_length (qs : List (String × ℤ)) (i : ℕ) (d : ℤ) :
    (updateQuota qs i d).length = qs.length := by
  induction qs generalizing i with
  | nil => rfl
  | cons p rest ih =>
    cases i with
    | zero => rfl
    | succ k => simp [updateQuota, ih]

theorem qsum_updateQuota (qs : List (String × ℤ)) (i : ℕ) (d : ℤ)
    (h : i < qs.length) :
    qsum (updateQuota qs i d) = qsum qs + d := by
  induction qs generalizing i with
  | nil => simp at h
  | cons p rest ih =>
    cases i with
    | zero => simp [updateQuota, qsum]; ring
    | succ k =>
      have hk := ih k (by simpa using h)
      simp only [updateQuota, qsum, List.map_cons, List.sum_cons] at hk ⊢
      omega

theorem updateQuota_ne_nil (qs : List (String × ℤ)) (i : ℕ) (d : ℤ)
    (h : qs ≠ []) : updateQuota qs i d ≠ [] := by
  rw [← List.length_pos, updateQuota_length, List.length_pos]
  exact h

theorem decSteps_ok (n : ℤ) (fuel : ℕ) (qs out : List (String × ℤ))
    (h : decSteps n fuel qs = Except.ok out) :
    qsum out = min (qsum qs) n ∧ out.length = qs.length := by
  induction fuel generalizing qs with
  | zero => exact absurd h (by simp [decSteps])
  | succ fuel ih =>
    rw [decSteps] at h
    by_cases hlt : n < qsum qs
    · rw [if_pos hlt] at h
      by_cases he : qs = []
      · rw [if_pos he] at h
        exact absurd h (by simp)
      · rw [if_neg he] at h
        have hidx : argmaxIdx (qs.map Prod.snd) < qs.length := by
          simpa using argmaxIdx_lt_length (qs.map Prod.snd) (by simpa using he)
        have hq := qsum_updateQuota qs (argmaxIdx (qs.map Prod.snd)) (-1) hidx
        obtain ⟨h1, h2⟩ := ih _ h
        rw [hq] at h1
        rw [updateQuota_length] at h2
        exact ⟨by omega, h2⟩
    · rw [if_neg hlt] at h
      cases h
      exact ⟨by omega, rfl⟩

theorem decSteps_completes (n : ℤ) (fuel : ℕ) (qs : List (String × ℤ))
    (hne : qs ≠ []) (hf : (qsum qs - n).toNat < fuel) :
    ∃ out, decSteps n fuel qs = Except.ok out := by
  induction fuel generalizing qs with
  | zero => omega
  | succ fuel ih =>
    rw [decSteps]
    by_cases hlt : n < qsum qs
    · rw [if_pos hlt, if_neg hne]
      have hidx : argmaxIdx (qs.map Prod.snd) < qs.length := by
        simpa using argmaxIdx_lt_length (qs.map Prod.snd) (by simpa using hne)
      refine ih _ (updateQuota_ne_nil qs _ _ hne) ?_
      rw [qsum_updateQuota qs _ _ hidx]
      omega
    · rw [if_neg hlt]
      exact ⟨qs, rfl⟩

theorem incSteps_ok (n : ℤ) (fuel : ℕ) (qs out : List (String × ℤ))
    (h : incSteps n fuel qs = Except.ok out) :
    qsum out = max (qsum qs) n ∧ out.length = qs.length := by
  induction fuel generalizing qs with
  | zero => exact absurd h (by simp [incSteps])
  | succ fuel ih =>
    rw [incSteps] at h
    by_cases hlt : qsum qs < n
    · rw [if_pos hlt] at h
      by_cases he : qs = []
      · rw [if_pos he] at h
        exact absurd h (by simp)
      · rw [if_neg he] at h
        have hidx : argmaxIdx (qs.map Prod.snd) < qs.length := by
          simpa using argmaxIdx_lt_length (qs.map Prod.snd) (by simpa using he)
        have hq := qsum_updateQuota qs (argmaxIdx (qs.map Prod.snd)) 1 hidx
        obtain ⟨h1, h2⟩ := ih _ h
        rw [hq] at h1
        rw [updateQuota_length] at h2
        exact ⟨by omega, h2⟩
    · rw [if_neg hlt] at h
      cases h
      exact ⟨by omega, rfl⟩

theorem incSteps_completes (n : ℤ) (fuel : ℕ) (qs : List (String × ℤ))
    (hne : qs ≠ []) (hf : (n - qsum qs).toNat < fuel) :
    ∃ out, incSteps n fuel qs = Except.ok out := by
  induction fuel generalizing qs with
  | zero => omega
  | succ fuel ih =>
    rw [incSteps]
    by_cases hlt : qsum qs < n
    · rw [if_pos hlt, if_neg hne]
      have hidx : argmaxIdx (qs.map Prod.snd) < qs.length := by
        simpa using argmaxIdx_lt_length (qs.map Prod.snd) (by simpa using hne)
      refine ih _ (updateQuota_ne_nil qs _ _ hne) ?_
      rw [qsum_updateQuota qs _ _ hidx]
      omega
    · rw [if_neg hlt]
      exact ⟨qs, rfl⟩

theorem decLoop_ok (n : ℤ) (qs out : List (String × ℤ))
    (h : decLoop n qs = Except.ok out) :
    qsum out = min (qsum qs) n ∧ out.length = qs.length :=
  decSteps_ok n _ qs out h

theorem incLoop_ok (n : ℤ) (qs out : List (String × ℤ))
    (h : incLoop n qs = Except.ok out) :
    qsum out = max (qsum qs) n ∧ out.length = qs.length :=
  incSteps_ok n _ qs out h

theorem decLoop_completes (n : ℤ) (qs : List (String × ℤ)) (hne : qs ≠ []) :
    ∃ out, decLoop n qs = Except.ok out :=
  decSteps_completes n _ qs hne (by omega)

theorem incLoop_completes (n : ℤ) (qs : List (String × ℤ)) (hne : qs ≠ []) :
    ∃ out, incLoop n qs = Except.ok out :=
  incSteps_completes n _ qs hne (by omega)

theorem adjustedQuotas_ok_qsum (df : List Job) (n m : ℤ)
    (qs : List (String × ℤ)) (h : adjustedQuotas df n m = Except.ok qs) :
    qsum qs = n := by
  unfold adjustedQuotas at h
  cases hdec : decLoop n (initialQuotasOf df n m) with
  | error e =>
    rw [hdec] at h
    exact Except.noConfusion h
  | ok q1 =>
    rw [hdec] at h
    replace h : incLoop n q1 = Except.ok qs := h
    have h1 := (decLoop_ok n _ q1 hdec).1
    have h2 := (incLoop_ok n q1 qs h).1
    omega

/-!  Nonemptiness is preserved along the quota pipeline.  -/

theorem dropDuplicates_ne_nil (l : List Job) (h : l ≠ []) :
    dropDuplicates l ≠ [] := by
  cases l with
  | nil => exact absurd rfl h
  | cons j rest => simp [dropDuplicates, dropDupAux]

theorem dedupCorpus_ne_nil (df : List Job) (h : df ≠ []) :
    dedupCorpus df ≠ [] := by
  have := dropDuplicates_ne_nil df h
  simp [dedupCorpus, this]

theorem catsInOrder_ne_nil (jobs : List Job) (h : jobs ≠ []) :
    catsInOrder jobs ≠ [] := by
  cases jobs with
  | nil => exact absurd rfl h
  | cons j rest => simp [catsInOrder, catsInOrderAux]

theorem insertByCount_length (x : String × ℕ) (l : List (String × ℕ)) :
    (insertByCount x l).length = l.length + 1 := by
  induction l with
  | nil => rfl
  | cons y rest ih =>
    by_cases hc : y.2 < x.2
    · simp [insertByCount, hc]
    · simp [insertByCount, hc, ih]

theorem foldl_insertByCount_length (l acc : List (String × ℕ)) :
    (l.foldl (fun a x => insertByCount x a) acc).length =
      acc.length + l.length := by
  induction l generalizing acc with
  | nil => rfl
  | cons x rest ih =>
    simp only [List.foldl_cons, List.length_cons]
    rw [ih, insertByCount_length]
    omega

theorem value_counts_length (jobs : List Job) :
    (value_counts jobs).length = (catsInOrder jobs).length := by
  rw [value_counts, foldl_insertByCount_length]
  simp

theorem initialQuotasOf_ne_nil (df : List Job) (n m : ℤ) (h : df ≠ []) :
    initialQuotasOf df n m ≠ [] := by
  have h1 : dedupCorpus df ≠ [] := dedupCorpus_ne_nil df h
  have h2 : catsInOrder (dedupCorpus df) ≠ [] := catsInOrder_ne_nil _ h1
  have h3 : (value_counts (dedupCorpus df)).length ≠ 0 := by
    rw [value_counts_length]
    simpa [List.length_eq_zero] using h2
  rw [initialQuotasOf, initialQuotas]
  intro hcon
  apply h3
  simpa using congrArg List.length hcon

/-- C4 (amended): for every nonempty corpus the quota-adjustment loops
terminate without error, and the final quota sum equals N exactly — not
min(N, deduplicated corpus size): when the deduplicated corpus has fewer
than N records the quota sum still reaches N (see the counterexample),
and only the later per-category draw is capped by availability. -/
theorem c4_quota_loops_converge_to_n (df : List Job) (n m : ℤ) (h : df ≠ []) :
    ∃ qs, adjustedQuotas df n m = Except.ok qs ∧ qsum qs = n := by
  have hne := initialQuotasOf_ne_nil df n m h
  obtain ⟨q1, h1⟩ := decLoop_completes n (initialQuotasOf df n m) hne
  have hq1ne : q1 ≠ [] := by
    have := (decLoop_ok n _ q1 h1).2
    rw [← List.length_pos, this, List.length_pos]
    exact hne
  obtain ⟨q2, h2⟩ := incLoop_completes n q1 hq1ne
  have hadj : adjustedQuotas df n m = Except.ok q2 := by
    unfold adjustedQuotas
    rw [h1]
    exact h2
  exact ⟨q2, hadj, adjustedQuotas_ok_qsum df n m q2 hadj⟩

/-- Witness for C4's amended statement: the three-record corpus with
target 10. -/
theorem c4_quota_loops_converge_to_n_witness :
    ∃ qs, adjustedQuotas exSmall 10 5 = Except.ok qs ∧ qsum qs = 10 :=
  c4_quota_loops_converge_to_n exSmall 10 5 (by decide)

/-!  The per-category draw ends below the quota sum.  -/

theorem pySample_ok (l : List Job) (k : ℤ) (drawn : List Job)
    (h : pySample l k = Except.ok drawn) :
    0 ≤ k ∧ drawn = l.take k.toNat := by
  rw [pySample] at h
  by_cases h1 : k < 0
  · rw [if_pos h1] at h
    exact Except.noConfusion h
  · rw [if_neg h1] at h
    by_cases h2 : l.length < k.toNat
    · rw [if_pos h2] at h
      exact Except.noConfusion h
    · rw [if_neg h2] at h
      exact ⟨not_lt.mp h1, (Except.ok.inj h).symm⟩

theorem drawAll_ok_length (jobs : List Job) (qs : List (String × ℤ))
    (res : List Job) (h : drawAll jobs qs = Except.ok res) :
    (res.length : ℤ) ≤ qsum qs := by
  induction qs generalizing res with
  | nil =>
    replace h := Except.ok.inj h
    simp [← h, qsum]
  | cons p rest ih =>
    obtain ⟨c, q⟩ := p
    rw [drawAll] at h
    cases hs : pySample (jobs.filter (fun j => j.category = c))
        (min q ((jobs.filter (fun j => j.category = c)).length : ℤ)) with
    | error e =>
      rw [hs] at h
      exact Except.noConfusion h
    | ok drawn =>
      rw [hs] at h
      cases hr : drawAll jobs rest with
      | error e =>
        rw [hr] at h
        exact Except.noConfusion h
      | ok others =>
        rw [hr] at h
        replace h : drawn ++ others = res := Except.ok.inj h
        obtain ⟨hk, hd⟩ := pySample_ok _ _ _ hs
        have hlen : drawn.length ≤
            (min q ((jobs.filter (fun j => j.category = c)).length : ℤ)).toNat := by
          rw [hd]
          exact (List.length_take _ _).le.trans (min_le_left _ _)
        have hcast : ((min q ((jobs.filter (fun j => j.category = c)).length : ℤ)).toNat : ℤ) ≤ q := by
          rw [Int.toNat_of_nonneg hk]
          exact min_le_left _ _
        have hothers := ih others hr
        have hq : qsum ((c, q) :: rest) = q + qsum rest := by
          simp [qsum]
        rw [hq, ← h]
        have : (drawn.length : ℤ) ≤ q := le_trans (by exact_mod_cast hlen) hcast
        simp only [List.length_append]
        push_cast
        omega

/-- C8 (amended): the SampledSet never exceeds the target N.  The second
half of the original claim is false: the sample can be smaller than N
even when the deduplicated corpus has at least N records, because a
category's final quota can exceed its availability while another
category absorbed the cut (see the counterexample). -/
theorem c8_sample_size_at_most_n (df : List Job) (n m : ℤ) (res : List Job)
    (h : stratified_sample df n m = Except.ok res) :
    (res.length : ℤ) ≤ n := by
  unfold stratified_sample at h
  cases ha : adjustedQuotas df n m with
  | error e =>
    rw [ha] at h
    exact Except.noConfusion h
  | ok qs =>
    rw [ha] at h
    replace h : (if qs = [] then Except.error "No objects to concatenate"
        else drawAll (dedupCorpus df) qs) = Except.ok res := h
    by_cases he : qs = []
    · rw [if_pos he] at h
      exact Except.noConfusion h
    · rw [if_neg he] at h
      have hsum := adjustedQuotas_ok_qsum df n m qs ha
      have hlen := drawAll_ok_length (dedupCorpus df) qs res h
      omega

/-- Witness for C8's amended statement on the concrete starved corpus. -/
theorem c8_sample_size_at_most_n_witness :
    ((exStarveRes.length : ℤ) ≤ 4) :=
  c8_sample_size_at_most_n exStarve 4 2 exStarveRes (by rfl)

/-!  The category counts of `value_counts` partition the corpus.  -/

theorem insertByCount_perm (x : String × ℕ) (l : List (String × ℕ)) :
    List.Perm (insertByCount x l) (x :: l) := by
  induction l with
  | nil => exact List.Perm.refl _
  | cons y rest ih =>
    by_cases hc : y.2 < x.2
    · rw [insertByCount, if_pos hc]
    · rw [insertByCount, if_neg hc]
      exact (ih.cons y).trans (List.Perm.swap x y rest)

theorem foldl_insertByCount_perm (l : List (String × ℕ)) :
    ∀ acc : List (String × ℕ),
      List.Perm (l.foldl (fun a x => insertByCount x a) acc) (l ++ acc) := by
  induction l with
  | nil => intro acc; exact List.Perm.refl _
  | cons x rest ih =>
    intro acc
    simp only [List.foldl_cons, List.cons_append]
    refine ((ih _).trans ?_).trans List.perm_middle
    exact List.Perm.append_left rest (insertByCount_perm x acc)

theorem value_counts_perm (jobs : List Job) :
    List.Perm (value_counts jobs)
      ((catsInOrder jobs).map (fun c => (c, countCat jobs c))) := by
  simpa using foldl_insertByCount_perm
    ((catsInOrder jobs).map (fun c => (c, countCat jobs c))) []

theorem mem_catsInOrderAux_not_seen (l : List Job) :
    ∀ (seen : List String) (c : String), c ∈ catsInOrderAux seen l → c ∉ seen := by
  induction l with
  | nil => intro seen c hc; simp [catsInOrderAux] at hc
  | cons j rest ih =>
    intro seen c hc
    rw [catsInOrderAux] at hc
    by_cases hs : j.category ∈ seen
    · rw [if_pos hs] at hc
      exact ih seen c hc
    · rw [if_neg hs] at hc
      rcases List.mem_cons.mp hc with rfl | hc2
      · exact hs
      · intro hcon
        exact ih _ c hc2 (List.mem_cons_of_mem _ hcon)

theorem catsInOrderAux_nodup (l : List Job) :
    ∀ seen : List String, (catsInOrderAux seen l).Nodup := by
  induction l with
  | nil => intro seen; simp [catsInOrderAux]
  | cons j rest ih =>
    intro seen
    rw [catsInOrderAux]
    by_cases hs : j.category ∈ seen
    · rw [if_pos hs]
      exact ih seen
    · rw [if_neg hs]
      refine List.nodup_cons.mpr ⟨?_, ih _⟩
      intro hcon
      exact mem_catsInOrderAux_not_seen rest _ _ hcon (List.mem_cons_self _ _)

theorem mem_catsInOrderAux_cover (l : List Job) :
    ∀ (seen : List String) (j : Job), j ∈ l →
      j.category ∈ seen ∨ j.category ∈ catsInOrderAux seen l := by
  induction l with
  | nil => intro seen j hj; simp at hj
  | cons j0 rest ih =>
    intro seen j hj
    rw [catsInOrderAux]
    by_cases hs : j0.category ∈ seen
    · rw [if_pos hs]
      rcases List.mem_cons.mp hj with rfl | hj2
      · exact Or.inl hs
      · exact ih seen j hj2
    · rw [if_neg hs]
      rcases List.mem_cons.mp hj with rfl | hj2
      · exact Or.inr (List.mem_cons_self _ _)
      · rcases ih (j0.category :: seen) j hj2 with hin | hin
        · rcases List.mem_cons.mp hin with he | he
          · exact Or.inr (by rw [he]; exact List.mem_cons_self _ _)
          · exact Or.inl he
        · exact Or.inr (List.mem_cons_of_mem _ hin)

theorem catsInOrder_nodup (jobs : List Job) : (catsInOrder jobs).Nodup :=
  catsInOrderAux_nodup jobs []

theorem mem_catsInOrder (jobs : List Job) (j : Job) (hj : j ∈ jobs) :
    j.category ∈ catsInOrder jobs := by
  rcases mem_catsInOrderAux_cover jobs [] j hj with hin | hin
  · simp at hin
  · exact hin

theorem length_filter_split (p : Job → Bool) (l : List Job) :
    (l.filter p).length + (l.filter (fun a => !(p a))).length = l.length := by
  induction l with
  | nil => rfl
  | cons j rest ih =>
    by_cases hp : p j
    · simp only [List.filter_cons, hp, if_pos, Bool.not_true, if_neg,
        Bool.false_eq_true, not_false_eq_true, List.length_cons]
      omega
    · simp only [List.filter_cons]
      rw [if_neg (by simpa using hp), if_pos (by simpa using hp)]
      simp only [List.length_cons]
      omega

theorem sum_countCat (cats : List String) :
    ∀ jobs : List Job, cats.Nodup → (∀ j ∈ jobs, j.category ∈ cats) →
      ((cats.map (fun c => countCat jobs c)).sum) = jobs.length := by
  induction cats with
  | nil =>
    intro jobs _ hcov
    have : jobs = [] :=
      List.eq_nil_iff_forall_not_mem.mpr (fun j hj => by simpa using hcov j hj)
    subst this
    rfl
  | cons c cats ih =>
    intro jobs hnd hcov
    have hc_not : c ∉ cats := (List.nodup_cons.mp hnd).1
    have hnd' : cats.Nodup := (List.nodup_cons.mp hnd).2
    have hsplit := length_filter_split (fun j => j.category = c) jobs
    have hcongr : ∀ c' ∈ cats,
        countCat jobs c' = countCat (jobs.filter (fun j => !(j.category = c : Bool))) c' := by
      intro c' hc'
      have hcc : c' ≠ c := by
        intro hcon
        exact hc_not (hcon ▸ hc')
      rw [countCat, countCat, List.filter_filter]
      congr 1
      apply List.filter_congr
      intro a _
      by_cases ha : a.category = c'
      · have : a.category ≠ c := by rw [ha]; exact hcc
        simp [ha, this, hcc]
      · simp [ha]
    have hcov' : ∀ j ∈ jobs.filter (fun j => !(j.category = c : Bool)),
        j.category ∈ cats := by
      intro j hj
      have hj2 := List.mem_filter.mp hj
      have := hcov j hj2.1
      rcases List.mem_cons.mp this with he | he
      · exact absurd he (by simpa using hj2.2)
      · exact he
    have hih := ih (jobs.filter (fun j => !(j.category = c : Bool))) hnd' hcov'
    simp only [List.map_cons, List.sum_cons]
    rw [List.map_congr_left hcongr, hih]
    have : countCat jobs c = (jobs.filter (fun j => j.category = c)).length := rfl
    omega

theorem value_counts_sum (jobs : List Job) :
    ((value_counts jobs).map Prod.snd).sum = jobs.length := by
  have hp := (value_counts_perm jobs).map Prod.snd
  rw [hp.sum_eq]
  rw [List.map_map]
  have : (Prod.snd ∘ fun c => (c, countCat jobs c)) = fun c => countCat jobs c := rfl
  rw [this]
  exact sum_countCat (catsInOrder jobs) jobs (catsInOrder_nodup jobs)
    (mem_catsInOrder jobs)

/-- Truncation agrees with the floor on nonnegative rationals. -/
theorem pyInt_of_nonneg (q : ℚ) (h : 0 ≤ q) : pyInt q = ⌊q⌋ := by
  rw [pyInt, if_pos h, Rat.floor_def']
  exact Rat.floor_def.symm

/-- C6 (amended): each category's initial quota is
max(floor(share * N), M) — `int` truncation, not `round` as claimed: the
source applies `int(x)`, which truncates toward zero, and for shares
with fractional part at least one half this differs from rounding (see
the counterexample). -/
theorem c6_initial_quota_is_floor (df : List Job) (n m : ℤ) (c : String) (k : ℕ)
    (hn : 0 ≤ n) (hmem : (c, k) ∈ value_counts (dedupCorpus df)) :
    (c, max ⌊(k : ℚ) / ((dedupCorpus df).length : ℚ) * (n : ℚ)⌋ m) ∈
      initialQuotasOf df n m := by
  rw [initialQuotasOf, initialQuotas]
  refine List.mem_map.mpr ⟨(c, k), hmem, ?_⟩
  have htot : ((value_counts (dedupCorpus df)).map Prod.snd).sum =
      (dedupCorpus df).length := value_counts_sum _
  have hq : 0 ≤ (k : ℚ) / (((value_counts (dedupCorpus df)).map Prod.snd).sum : ℚ) *
      (n : ℚ) := by
    apply mul_nonneg
    · apply div_nonneg <;> positivity
    · exact_mod_cast hn
  simp only
  rw [pyInt_of_nonneg _ hq, htot]

/-- Witness for C6's amended statement: category A of the share corpus
(count 3 of 5, target 3, floor quota 1). -/
theorem c6_initial_quota_is_floor_witness :
    ("A", max ⌊(3 : ℚ) / ((dedupCorpus exShare).length : ℚ) * ((3 : ℤ) : ℚ)⌋ 1) ∈
      initialQuotasOf exShare 3 1 :=
  c6_initial_quota_is_floor exShare 3 1 "A" 3 (by norm_num) (by decide)

/-!  Helper lemmas for the extractor: sequential option maps, list
indexing, and the stable argsort.  -/

theorem mapOpt_eq_some {α β : Type} (f : α → Option β) (g : α → β) :
    ∀ l : List α, (∀ a ∈ l, f a = some (g a)) → mapOpt l f = some (l.map g) := by
  intro l
  induction l with
  | nil => intro _; rfl
  | cons a rest ih =>
    intro h
    have ha := h a (List.mem_cons_self a rest)
    have hrest := ih (fun b hb => h b (List.mem_cons_of_mem a hb))
    simp [mapOpt, ha, hrest]

theorem mapOpt_eq_none {α β : Type} (f : α → Option β) (a : α) :
    ∀ l : List α, a ∈ l → f a = none → mapOpt l f = none := by
  intro l
  induction l with
  | nil => intro h; simp at h
  | cons b rest ih =>
    intro hmem hf
    rcases List.mem_cons.mp hmem with rfl | h2
    · simp [mapOpt, hf]
    · cases hb : f b with
      | none => simp [mapOpt, hb]
      | some v => simp [mapOpt, hb, ih h2 hf]

theorem get?_eq_some_getD {α : Type} (d : α) :
    ∀ (l : List α) (i : ℕ), i < l.length → l.get? i = some (l.getD i d) := by
  intro l
  induction l with
  | nil => intro i hi; simp at hi
  | cons a rest ih =>
    intro i hi
    cases i with
    | zero => rfl
    | succ k =>
      have := ih k (by simpa using hi)
      simpa [List.getD] using this

theorem getD_mem_of_lt {α : Type} (d : α) :
    ∀ (l : List α) (i : ℕ), i < l.length → l.getD i d ∈ l := by
  intro l
  induction l with
  | nil => intro i hi; simp at hi
  | cons a rest ih =>
    intro i hi
    cases i with
    | zero => exact List.mem_cons_self a rest
    | succ k =>
      have := ih k (by simpa using hi)
      simpa [List.getD] using List.mem_cons_of_mem a (by simpa [List.getD] using this)

theorem mapOpt_map {α β γ : Type} (h : α → β) (f : β → Option γ) :
    ∀ l : List α, mapOpt (l.map h) f = mapOpt l (fun a => f (h a)) := by
  intro l
  induction l with
  | nil => rfl
  | cons a rest ih =>
    simp only [List.map_cons, mapOpt, ih]

theorem mapOpt_range_bind {α β : Type} (f : α → Option β) (g : α → β) :
    ∀ l : List α, (∀ a ∈ l, f a = some (g a)) →
      mapOpt (List.range l.length) (fun j => Option.bind (l.get? j) f) =
        some (l.map g) := by
  intro l
  induction l with
  | nil => intro _; rfl
  | cons a rest ih =>
    intro h
    have h0 : Option.bind ((a :: rest).get? 0) f = some (g a) := by
      rw [show (a :: rest).get? 0 = some a from rfl, Option.some_bind']
      exact h a (List.mem_cons_self a rest)
    have htail : mapOpt ((List.range rest.length).map Nat.succ)
        (fun j => Option.bind ((a :: rest).get? j) f) = some (rest.map g) := by
      rw [mapOpt_map]
      exact ih (fun b hb => h b (List.mem_cons_of_mem a hb))
    rw [List.length_cons, List.range_succ_eq_map]
    simp only [mapOpt, h0, htail]
    rfl

theorem insertRank_perm (s : List ℚ) (k : ℕ) (l : List ℕ) :
    List.Perm (insertRank s k l) (k :: l) := by
  induction l with
  | nil => exact List.Perm.refl _
  | cons j rest ih =>
    by_cases hc : s.getD k 0 < s.getD j 0
    · rw [insertRank, if_pos hc]
    · rw [insertRank, if_neg hc]
      exact (ih.cons j).trans (List.Perm.swap k j rest)

theorem foldl_insertRank_perm (s : List ℚ) (l : List ℕ) :
    ∀ acc : List ℕ,
      List.Perm (l.foldl (fun a k => insertRank s k a) acc) (l ++ acc) := by
  induction l with
  | nil => intro acc; exact List.Perm.refl _
  | cons k rest ih =>
    intro acc
    simp only [List.foldl_cons, List.cons_append]
    refine ((ih _).trans ?_).trans List.perm_middle
    exact List.Perm.append_left rest (insertRank_perm s k acc)

theorem argsortAsc_perm (s : List ℚ) :
    List.Perm (argsortAsc s) (List.range s.length) := by
  simpa using foldl_insertRank_perm s (List.range s.length) []

theorem argsortAsc_length (s : List ℚ) : (argsortAsc s).length = s.length := by
  rw [(argsortAsc_perm s).length_eq, List.length_range]

theorem argsortAsc_nodup (s : List ℚ) : (argsortAsc s).Nodup :=
  ((argsortAsc_perm s).nodup_iff).mpr (List.nodup_range _)

theorem mem_argsortAsc (s : List ℚ) (k : ℕ) :
    k ∈ argsortAsc s ↔ k < s.length := by
  rw [(argsortAsc_perm s).mem_iff, List.mem_range]

theorem insertRank_pairwise (s : List ℚ) (k : ℕ) :
    ∀ l : List ℕ, l.Pairwise (rankLt s) → (∀ j ∈ l, j < k) →
      (insertRank s k l).Pairwise (rankLt s) := by
  intro l
  induction l with
  | nil => intro _ _; simp [insertRank]
  | cons j rest ih =>
    intro hpw hall
    obtain ⟨hjrest, hrestpw⟩ := List.pairwise_cons.mp hpw
    by_cases hc : s.getD k 0 < s.getD j 0
    · rw [insertRank, if_pos hc]
      refine List.pairwise_cons.mpr ⟨?_, hpw⟩
      intro b hb
      rcases List.mem_cons.mp hb with rfl | hb2
      · exact Or.inl hc
      · rcases hjrest b hb2 with hlt | ⟨heq, _⟩
        · exact Or.inl (hc.trans hlt)
        · exact Or.inl (heq ▸ hc)
    · rw [insertRank, if_neg hc]
      refine List.pairwise_cons.mpr ⟨?_, ?_⟩
      · intro b hb
        rcases List.mem_cons.mp ((insertRank_perm s k rest).mem_iff.mp hb) with rfl | hb2
        · rcases lt_or_eq_of_le (not_lt.mp hc) with hlt | heq
          · exact Or.inl hlt
          · exact Or.inr ⟨heq, hall j (List.mem_cons_self j rest)⟩
        · exact hjrest b hb2
      · exact ih hrestpw (fun b hb => hall b (List.mem_cons_of_mem j hb))

theorem foldl_insertRank_pairwise (s : List ℚ) :
    ∀ (l acc : List ℕ), l.Pairwise (· < ·) → acc.Pairwise (rankLt s) →
      (∀ j ∈ acc, ∀ k ∈ l, j < k) →
      (l.foldl (fun a k => insertRank s k a) acc).Pairwise (rankLt s) := by
  intro l
  induction l with
  | nil => intro acc _ hacc _; exact hacc
  | cons k rest ih =>
    intro acc hlpw haccpw hall
    simp only [List.foldl_cons]
    obtain ⟨hkrest, hrestpw⟩ := List.pairwise_cons.mp hlpw
    refine ih _ hrestpw ?_ ?_
    · exact insertRank_pairwise s k acc haccpw
        (fun j hj => hall j hj k (List.mem_cons_self k rest))
    · intro j hj k2 hk2
      rcases List.mem_cons.mp ((insertRank_perm s k acc).mem_iff.mp hj) with rfl | hj2
      · exact hkrest k2 hk2
      · exact hall j hj2 k2 (List.mem_cons_of_mem k hk2)

theorem argsortAsc_pairwise (s : List ℚ) :
    (argsortAsc s).Pairwise (rankLt s) := by
  refine foldl_insertRank_pairwise s (List.range s.length) []
    (List.pairwise_lt_range _) (by simp) (by simp)

theorem argsortAsc_strict_min_head (s : List ℚ) (i : ℕ) (hi : i < s.length)
    (hmin : ∀ j, j < s.length → j ≠ i → s.getD i 0 < s.getD j 0) :
    ∃ rest, argsortAsc s = i :: rest ∧ i ∉ rest := by
  have hmem : i ∈ argsortAsc s := (mem_argsortAsc s i).mpr hi
  have hnd := argsortAsc_nodup s
  have hpw := argsortAsc_pairwise s
  cases h : argsortAsc s with
  | nil =>
    rw [h] at hmem
    simp at hmem
  | cons hd rest =>
    rw [h] at hmem hnd hpw
    by_cases he : hd = i
    · subst he
      exact ⟨rest, rfl, (List.nodup_cons.mp hnd).1⟩
    · exfalso
      have hir : i ∈ rest := by
        rcases List.mem_cons.mp hmem with h1 | h1
        · exact absurd h1.symm he
        · exact h1
      have hrel := (List.pairwise_cons.mp hpw).1 i hir
      have hhd_mem : hd ∈ argsortAsc s := by
        rw [h]
        exact List.mem_cons_self hd rest
      have hhd_lt : hd < s.length := (mem_argsortAsc s hd).mp hhd_mem
      have hgt := hmin hd hhd_lt he
      rcases hrel with hlt | ⟨heq, _⟩
      · exact absurd hlt (by linarith)
      · rw [heq] at hgt
        exact lt_irrefl _ hgt

theorem getD_set_self {α : Type} (d v : α) :
    ∀ (l : List α) (i : ℕ), i < l.length → (l.set i v).getD i d = v := by
  intro l
  induction l with
  | nil => intro i hi; simp at hi
  | cons a rest ih =>
    intro i hi
    cases i with
    | zero => rfl
    | succ k =>
      have := ih k (by simpa using hi)
      simpa [List.getD] using this

theorem getD_set_ne {α : Type} (d v : α) :
    ∀ (l : List α) (i j : ℕ), j ≠ i → (l.set i v).getD j d = l.getD j d := by
  intro l
  induction l with
  | nil => intro i j _; simp
  | cons a rest ih =>
    intro i j hne
    cases i with
    | zero =>
      cases j with
      | zero => exact absurd rfl hne
      | succ k => rfl
    | succ i2 =>
      cases j with
      | zero => rfl
      | succ k =>
        have := ih i2 k (by omega)
        simpa [List.getD] using this

theorem getD_eq_get {α : Type} (d : α) :
    ∀ (l : List α) (i : ℕ) (h : i < l.length), l.getD i d = l.get ⟨i, h⟩ := by
  intro l
  induction l with
  | nil => intro i hi; simp at hi
  | cons a rest ih =>
    intro i hi
    cases i with
    | zero => rfl
    | succ k =>
      have := ih k (by simpa using hi)
      simpa [List.getD] using this

/-- The extractor on well-shaped input: the run succeeds and each entry
is the self-masked row ranked by the reversed stable argsort, truncated
to `n`, with rounded scores. -/
theorem get_top_n_recs_eq (sim : List (List ℚ)) (ids : List String) (n : ℕ)
    (hsim : sim.length = ids.length)
    (hrows : ∀ row ∈ sim, row.length = ids.length)
    (hn : n ≤ ids.length) :
    get_top_n_recs sim ids n = some ((List.range ids.length).map (fun i =>
      (ids.getD i "",
        ((argsortAsc ((sim.getD i []).set i (-1))).reverse.take n).map
          (fun k => (ids.getD k "", round4 (((sim.getD i []).set i (-1)).getD k 0)))))) := by
  rw [get_top_n_recs]
  apply mapOpt_eq_some
  intro i hi0
  have hi : i < ids.length := List.mem_range.mp hi0
  have hisim : i < sim.length := by rw [hsim]; exact hi
  have h1 : sim.get? i = some (sim.getD i []) := get?_eq_some_getD [] sim i hisim
  have hrl : (sim.getD i []).length = ids.length :=
    hrows _ (getD_mem_of_lt [] sim i hisim)
  have h2 : setNth (sim.getD i []) i (-1) = some ((sim.getD i []).set i (-1)) := by
    rw [setNth, if_pos]
    rw [hrl]
    exact hi
  have hslen : ((sim.getD i []).set i (-1)).length = ids.length := by
    rw [List.length_set, hrl]
  have htlen : ((argsortAsc ((sim.getD i []).set i (-1))).reverse.take n).length = n := by
    rw [List.length_take, List.length_reverse, argsortAsc_length, hslen]
    exact min_eq_left hn
  have hstep : ∀ k ∈ (argsortAsc ((sim.getD i []).set i (-1))).reverse.take n,
      Option.bind (((sim.getD i []).set i (-1)).get? k) (fun s =>
        Option.bind (ids.get? k) (fun nid => some (nid, round4 s))) =
      some (ids.getD k "", round4 (((sim.getD i []).set i (-1)).getD k 0)) := by
    intro k hkmem
    have hkarg : k ∈ argsortAsc ((sim.getD i []).set i (-1)) :=
      List.mem_reverse.mp (List.take_subset n _ hkmem)
    have hkl := (mem_argsortAsc _ _).mp hkarg
    have hs := get?_eq_some_getD 0 ((sim.getD i []).set i (-1)) _ hkl
    have hid := get?_eq_some_getD "" ids k (by rw [← hslen]; exact hkl)
    rw [hs, Option.some_bind', hid, Option.some_bind']
  have h3 : mapOpt (List.range n) (fun j =>
      Option.bind (((argsortAsc ((sim.getD i []).set i (-1))).reverse.take n).get? j)
        (fun k => Option.bind (((sim.getD i []).set i (-1)).get? k) (fun s =>
          Option.bind (ids.get? k) (fun nid => some (nid, round4 s))))) =
      some (((argsortAsc ((sim.getD i []).set i (-1))).reverse.take n).map
        (fun k => (ids.getD k "", round4 (((sim.getD i []).set i (-1)).getD k 0)))) := by
    have hr : List.range n =
        List.range ((argsortAsc ((sim.getD i []).set i (-1))).reverse.take n).length := by
      rw [htlen]
    rw [hr]
    exact mapOpt_range_bind _ _ _ hstep
  have h4 : ids.get? i = some (ids.getD i "") := get?_eq_some_getD "" ids i hi
  rw [h1, Option.some_bind', h2, Option.some_bind', h3, Option.some_bind',
    h4, Option.some_bind']

/-- C7 (amended): on a sampled set of at least TOP_N items the extractor
succeeds and each emitted list holds exactly TOP_N pairs, ordered by
descending score with ties broken by DESCENDING index of the neighbor
(`rankLt scores b a` for `a` emitted before `b`), each score rounded to
4 decimal places.  The original claim's ascending tie order is refuted
by the counterexample: `np.argsort` ascending puts tied indices in
ascending order and the `[::-1]` reversal flips them. -/
theorem c7_neighbor_list_shape (sim : List (List ℚ)) (ids : List String) (n : ℕ)
    (hsim : sim.length = ids.length)
    (hrows : ∀ row ∈ sim, row.length = ids.length)
    (hn : n ≤ ids.length) :
    ∃ recs, get_top_n_recs sim ids n = some recs ∧
      recs.length = ids.length ∧
      ∀ i, i < ids.length →
        ∃ sel : List ℕ,
          sel.length = n ∧
          sel.Pairwise (fun a b => rankLt ((sim.getD i []).set i (-1)) b a) ∧
          recs.get? i = some (ids.getD i "",
            sel.map (fun k =>
              (ids.getD k "", round4 (((sim.getD i []).set i (-1)).getD k 0)))) := by
  refine ⟨_, get_top_n_recs_eq sim ids n hsim hrows hn, by simp, ?_⟩
  intro i hi
  refine ⟨(argsortAsc ((sim.getD i []).set i (-1))).reverse.take n, ?_, ?_, ?_⟩
  · rw [List.length_take, List.length_reverse, argsortAsc_length,
      List.length_set, hrows _ (getD_mem_of_lt [] sim i (by rw [hsim]; exact hi))]
    exact min_eq_left hn
  · refine List.Pairwise.sublist (List.take_sublist n _) ?_
    exact (List.pairwise_reverse).mpr (argsortAsc_pairwise _)
  · rw [List.get?_map, List.get?_range hi]
    rfl

/-- Witness for C7's amended statement on the four-item tie corpus. -/
theorem c7_neighbor_list_shape_witness :
    ∃ recs, get_top_n_recs
      [[1, 1/2, 1/2, 9/10], [1/2, 1, 1/4, 1/4],
       [1/2, 1/4, 1, 1/4], [9/10, 1/4, 1/4, 1]]
      ["a", "b", "c", "d"] 3 = some recs ∧
      recs.length = (["a", "b", "c", "d"] : List String).length ∧
      ∀ i, i < (["a", "b", "c", "d"] : List String).length →
        ∃ sel : List ℕ,
          sel.length = 3 ∧
          sel.Pairwise (fun a b => rankLt ((([[1, 1/2, 1/2, 9/10], [1/2, 1, 1/4, 1/4],
            [1/2, 1/4, 1, 1/4], [9/10, 1/4, 1/4, 1]] : List (List ℚ)).getD i []).set i (-1)) b a) ∧
          recs.get? i = some ((["a", "b", "c", "d"] : List String).getD i "",
            sel.map (fun k =>
              ((["a", "b", "c", "d"] : List String).getD k "",
                round4 (((([[1, 1/2, 1/2, 9/10], [1/2, 1, 1/4, 1/4],
                  [1/2, 1/4, 1, 1/4], [9/10, 1/4, 1/4, 1]] : List (List ℚ)).getD i []).set i (-1)).getD k 0)))) :=
  c7_neighbor_list_shape
    [[1, 1/2, 1/2, 9/10], [1/2, 1, 1/4, 1/4], [1/2, 1/4, 1, 1/4], [9/10, 1/4, 1/4, 1]]
    ["a", "b", "c", "d"] 3 (by decide) (by decide) (by decide)

/-- C2 (amended): when the sampled set is strictly larger than TOP_N and
the similarity entries are nonnegative (true of every matrix the source
builds), the self entry can never be emitted: its sentinel score -1 is
the unique strict minimum, so it lands last in the ranking and outside
the first TOP_N.  With exactly TOP_N items the self entry IS emitted
(see the counterexample), so strictness is necessary. -/
theorem c2_no_self_when_strictly_larger (sim : List (List ℚ)) (ids : List String)
    (n : ℕ) (hsim : sim.length = ids.length)
    (hrows : ∀ row ∈ sim, row.length = ids.length)
    (hpos : ∀ row ∈ sim, ∀ x ∈ row, 0 ≤ x)
    (hnd : ids.Nodup) (hn : n < ids.length) :
    ∃ recs, get_top_n_recs sim ids n = some recs ∧
      ∀ i, i < ids.length → ∀ sid pairs, recs.get? i = some (sid, pairs) →
        ∀ p ∈ pairs, p.1 ≠ ids.getD i "" := by
  refine ⟨_, get_top_n_recs_eq sim ids n hsim hrows hn.le, ?_⟩
  intro i hi sid pairs hget p hp
  rw [List.get?_map, List.get?_range hi] at hget
  have hget2 : (sid, pairs) = (ids.getD i "",
      ((argsortAsc ((sim.getD i []).set i (-1))).reverse.take n).map
        (fun k => (ids.getD k "", round4 (((sim.getD i []).set i (-1)).getD k 0)))) := by
    exact (Option.some.inj hget).symm
  have hpairs : pairs = ((argsortAsc ((sim.getD i []).set i (-1))).reverse.take n).map
      (fun k => (ids.getD k "", round4 (((sim.getD i []).set i (-1)).getD k 0))) :=
    congrArg Prod.snd hget2
  rw [hpairs] at hp
  obtain ⟨k, hkmem, hkp⟩ := List.mem_map.mp hp
  have hrl : (sim.getD i []).length = ids.length :=
    hrows _ (getD_mem_of_lt [] sim i (by rw [hsim]; exact hi))
  have hslen : ((sim.getD i []).set i (-1)).length = ids.length := by
    rw [List.length_set, hrl]
  have hmin : ∀ j, j < ((sim.getD i []).set i (-1)).length → j ≠ i →
      ((sim.getD i []).set i (-1)).getD i 0 < ((sim.getD i []).set i (-1)).getD j 0 := by
    intro j hj hne
    rw [getD_set_self 0 (-1) _ i (by rw [hrl]; exact hi)]
    rw [getD_set_ne 0 (-1) _ i j hne]
    have hjrow : j < (sim.getD i []).length := by
      rw [hrl, ← hslen]
      exact hj
    have hmem := getD_mem_of_lt 0 (sim.getD i []) j hjrow
    have := hpos _ (getD_mem_of_lt [] sim i (by rw [hsim]; exact hi)) _ hmem
    linarith
  obtain ⟨rest, hargs, hnotin⟩ := argsortAsc_strict_min_head
    ((sim.getD i []).set i (-1)) i (by rw [hslen]; exact hi) hmin
  have hlen_args : (argsortAsc ((sim.getD i []).set i (-1))).length = ids.length := by
    rw [argsortAsc_length, hslen]
  have hrest_len : rest.length + 1 = ids.length := by
    rw [hargs] at hlen_args
    simpa using hlen_args
  have hn_rest : n ≤ rest.length := by omega
  have htake : (argsortAsc ((sim.getD i []).set i (-1))).reverse.take n =
      rest.reverse.take n := by
    rw [hargs, List.reverse_cons]
    exact List.take_append_of_le_length (by simpa using hn_rest)
  rw [htake] at hkmem
  have hk_rest : k ∈ rest := List.mem_reverse.mp (List.take_subset n _ hkmem)
  have hkne : k ≠ i := fun hcon => hnotin (hcon ▸ hk_rest)
  have hk_arg : k ∈ argsortAsc ((sim.getD i []).set i (-1)) := by
    rw [hargs]
    exact List.mem_cons_of_mem i hk_rest
  have hk_lt : k < ids.length := by
    have := (mem_argsortAsc _ _).mp hk_arg
    rw [hslen] at this
    exact this
  have hp1 : p.1 = ids.getD k "" := by rw [← hkp]
  intro hcon
  rw [hp1] at hcon
  rw [getD_eq_get "" ids k hk_lt, getD_eq_get "" ids i hi] at hcon
  have hfin := (List.Nodup.get_inj_iff hnd).mp hcon
  exact hkne (by simpa using congrArg Fin.val hfin)

/-- Witness for C2's amended statement: three items, TOP_N = 2. -/
theorem c2_no_self_when_strictly_larger_witness :
    ∃ recs, get_top_n_recs [[1, 4/5, 1/5], [4/5, 1, 3/10], [1/5, 3/10, 1]]
      ["a", "b", "c"] 2 = some recs ∧
      ∀ i, i < (["a", "b", "c"] : List String).length →
        ∀ sid pairs, recs.get? i = some (sid, pairs) →
          ∀ p ∈ pairs, p.1 ≠ (["a", "b", "c"] : List String).getD i "" :=
  c2_no_self_when_strictly_larger [[1, 4/5, 1/5], [4/5, 1, 3/10], [1/5, 3/10, 1]]
    ["a", "b", "c"] 2 (by decide) (by decide) (by decide) (by decide) (by decide)

/-- C1 (amended): on a sampled set with at least one item but fewer than
TOP_N items, the extractor raises an `IndexError` (modelled by `none`)
instead of returning shorter neighbor lists: `top_n` holds only
`len(df)` indices while the comprehension indexes it at every
`j < TOP_N`.  In particular the single-item corpus crashes rather than
yielding an empty neighbor list. -/
theorem c1_short_input_raises (sim : List (List ℚ)) (ids : List String) (n : ℕ)
    (hsim : sim.length = ids.length)
    (hrows : ∀ row ∈ sim, row.length = ids.length)
    (h1 : 1 ≤ ids.length) (h2 : ids.length < n) :
    get_top_n_recs sim ids n = none := by
  rw [get_top_n_recs]
  apply mapOpt_eq_none _ 0 _ (List.mem_range.mpr h1)
  have h0sim : 0 < sim.length := by rw [hsim]; exact h1
  have h1s : sim.get? 0 = some (sim.getD 0 []) := get?_eq_some_getD [] sim 0 h0sim
  have hrl : (sim.getD 0 []).length = ids.length :=
    hrows _ (getD_mem_of_lt [] sim 0 h0sim)
  have hset : setNth (sim.getD 0 []) 0 (-1) = some ((sim.getD 0 []).set 0 (-1)) := by
    rw [setNth, if_pos]
    rw [hrl]
    exact h1
  have hslen : ((sim.getD 0 []).set 0 (-1)).length = ids.length := by
    rw [List.length_set, hrl]
  have htlen : ((argsortAsc ((sim.getD 0 []).set 0 (-1))).reverse.take n).length =
      ids.length := by
    rw [List.length_take, List.length_reverse, argsortAsc_length, hslen]
    exact min_eq_right h2.le
  have hinner : mapOpt (List.range n) (fun j =>
      Option.bind (((argsortAsc ((sim.getD 0 []).set 0 (-1))).reverse.take n).get? j)
        (fun k => Option.bind (((sim.getD 0 []).set 0 (-1)).get? k) (fun s =>
          Option.bind (ids.get? k) (fun nid => some (nid, round4 s))))) = none := by
    apply mapOpt_eq_none _ ids.length _ (List.mem_range.mpr h2)
    have hend : ((argsortAsc ((sim.getD 0 []).set 0 (-1))).reverse.take n).get?
        ids.length = none := by
      rw [List.get?_eq_none]
      rw [htlen]
    rw [hend]
    rfl
  rw [h1s, Option.some_bind', hset, Option.some_bind', hinner]
  rfl

/-- Witness for C1's amended statement: two items, TOP_N = 3. -/
theorem c1_short_input_raises_witness :
    get_top_n_recs [[1, 0], [0, 1]] ["a", "b"] 3 = none :=
  c1_short_input_raises [[1, 0], [0, 1]] ["a", "b"] 3
    (by decide) (by decide) (by decide) (by decide)

end JobRec
